import Mathlib

/-!
Verification development for the cwl-utils dispatch layer.

This file gives a shallow embedding of the two source files of the
repository:

  * cwl_utils/parser/__init__.py : multi-version document dispatch
    (cwl_version, _get_id_from_graph, load_document, load_document_by_string,
    load_document_by_yaml, save, is_process, version_split);
  * cwl_utils/cite_extract.py : recursive traversal collecting
    SoftwareRequirement package metadata (extract_software_reqs,
    extract_software_packages, process_software_requirement, traverse,
    get_process_from_step, traverse_workflow).

Python values appearing in CWL YAML documents are modelled by the inductive
type `Yaml` below; Python exceptions become an explicit error type `Err`;
mutation of the input document in load_document_by_yaml is modelled by
explicit state passing (the function returns the final value of the object
the caller handed in, next to its result).

The generated per-version parser modules (cwl_v1_0, cwl_v1_1, cwl_v1_2) and
schema-salad are external to the repository; they are modelled from the
spec where a claim needs them (see `versionedLoad` and the `lf` parameter
of the cite_extract functions).
-/

deriving instance DecidableEq for Except

namespace CwlUtils

/-- Yaml models the plain Python data handled by the dispatch layer:
None, booleans, integers, strings, lists, and string-keyed dicts
(dicts are association lists in insertion order, without duplicate keys). -/
inductive Yaml where
  | null : Yaml
  | bool (b : Bool) : Yaml
  | int (n : Int) : Yaml
  | str (s : String) : Yaml
  | list (xs : List Yaml) : Yaml
  | map (m : List (String × Yaml)) : Yaml

mutual
def yamlDecEq : (a b : Yaml) → Decidable (a = b)
  | .null, .null => isTrue rfl
  | .null, .bool _ => isFalse nofun
  | .null, .int _ => isFalse nofun
  | .null, .str _ => isFalse nofun
  | .null, .list _ => isFalse nofun
  | .null, .map _ => isFalse nofun
  | .bool _, .null => isFalse nofun
  | .bool a, .bool b =>
      if h : a = b then isTrue (by rw [h]) else isFalse (fun hh => h (by injection hh))
  | .bool _, .int _ => isFalse nofun
  | .bool _, .str _ => isFalse nofun
  | .bool _, .list _ => isFalse nofun
  | .bool _, .map _ => isFalse nofun
  | .int _, .null => isFalse nofun
  | .int _, .bool _ => isFalse nofun
  | .int a, .int b =>
      if h : a = b then isTrue (by rw [h]) else isFalse (fun hh => h (by injection hh))
  | .int _, .str _ => isFalse nofun
  | .int _, .list _ => isFalse nofun
  | .int _, .map _ => isFalse nofun
  | .str _, .null => isFalse nofun
  | .str _, .bool _ => isFalse nofun
  | .str _, .int _ => isFalse nofun
  | .str a, .str b =>
      if h : a = b then isTrue (by rw [h]) else isFalse (fun hh => h (by injection hh))
  | .str _, .list _ => isFalse nofun
  | .str _, .map _ => isFalse nofun
  | .list _, .null => isFalse nofun
  | .list _, .bool _ => isFalse nofun
  | .list _, .int _ => isFalse nofun
  | .list _, .str _ => isFalse nofun
  | .list xs, .list ys =>
      match yamlListDecEq xs ys with
      | isTrue h => isTrue (by rw [h])
      | isFalse h => isFalse (fun hh => h (by injection hh))
  | .list _, .map _ => isFalse nofun
  | .map _, .null => isFalse nofun
  | .map _, .bool _ => isFalse nofun
  | .map _, .int _ => isFalse nofun
  | .map _, .str _ => isFalse nofun
  | .map _, .list _ => isFalse nofun
  | .map m, .map n =>
      match yamlMapDecEq m n with
      | isTrue h => isTrue (by rw [h])
      | isFalse h => isFalse (fun hh => h (by injection hh))

def yamlListDecEq : (xs ys : List Yaml) → Decidable (xs = ys)
  | [], [] => isTrue rfl
  | [], _ :: _ => isFalse nofun
  | _ :: _, [] => isFalse nofun
  | x :: xs, y :: ys =>
      match yamlDecEq x y, yamlListDecEq xs ys with
      | isTrue h1, isTrue h2 => isTrue (by rw [h1, h2])
      | isFalse h1, _ => isFalse (fun hh => h1 (by injection hh))
      | isTrue _, isFalse h2 => isFalse (fun hh => h2 (by injection hh))

def yamlMapDecEq : (m n : List (String × Yaml)) → Decidable (m = n)
  | [], [] => isTrue rfl
  | [], _ :: _ => isFalse nofun
  | _ :: _, [] => isFalse nofun
  | (k, v) :: m, (k2, v2) :: n =>
      match String.decEq k k2, yamlDecEq v v2, yamlMapDecEq m n with
      | isTrue h1, isTrue h2, isTrue h3 => isTrue (by rw [h1, h2, h3])
      | isFalse h1, _, _ =>
          isFalse (fun hh => h1 (by injection hh with h4 h5; injection h4))
      | isTrue _, isFalse h2, _ =>
          isFalse (fun hh => h2 (by injection hh with h4 h5; injection h4))
      | isTrue _, isTrue _, isFalse h3 => isFalse (fun hh => h3 (by injection hh))
end

instance : DecidableEq Yaml := yamlDecEq

/-- Err models the Python exceptions the embedded code can raise.
GraphTargetMissingException is a distinct class defined in
cwl_utils/errors.py; KeyError and typeErr (TypeError or AttributeError on an
ill-typed access) are Python builtins; valueError covers ValueError from
int() and from max() on an empty iterable. -/
inductive Err where
  | validationException (msg : String) : Err
  | graphTargetMissing (msg : String) : Err
  | keyError (key : String) : Err
  | typeErr : Err
  | valueError : Err
deriving DecidableEq

/-- mapLookup models Python dict subscript lookup: value of the first
binding of the key, if any. -/
def mapLookup : List (String × Yaml) → String → Option Yaml
  | [], _ => none
  | (k, v) :: rest, key => if k = key then some v else mapLookup rest key

/-- mapSet models Python dict item assignment: an existing key keeps its
position and gets the new value, a new key is appended at the end. -/
def mapSet : List (String × Yaml) → String → Yaml → List (String × Yaml)
  | [], k, v => [(k, v)]
  | (k0, v0) :: rest, k, v =>
      if k0 = k then (k, v) :: rest else (k0, v0) :: mapSet rest k v

/-- setKeyY applies mapSet under the Yaml.map constructor; on a non-dict it
returns the value unchanged (the embedding only uses it on dicts). -/
def setKeyY : Yaml → String → Yaml → Yaml
  | .map m, k, v => .map (mapSet m k v)
  | y, _, _ => y

/-- lstripHash models the Python expression s.lstrip("#"): remove every
leading occurrence of the character. -/
def lstripHash (s : String) : String :=
  String.mk (s.data.dropWhile (fun c => c = '#'))

/-- cwl_version embeds cwl_version of cwl_utils/parser/__init__.py:
raise ValidationException unless the argument is a MutableMapping, return
None when "cwlVersion" is not among the keys, else the stored value
(Python yields the same None whether the key is absent or maps to None). -/
def cwl_version : Yaml → Except Err Yaml
  | .map m =>
      if (m.map Prod.fst).contains "cwlVersion" then
        match mapLookup m "cwlVersion" with
        | some v => .ok v
        | none => .error (.keyError "cwlVersion")
      else .ok .null
  | _ => .error (.validationException "MutableMapping is required")

/-- elGraphId models the expression el["id"] followed by .lstrip, as used on
each element of a $graph list: KeyError when "id" is absent, TypeError or
AttributeError (collapsed to typeErr) when the element is not a dict or the
id is not a string. -/
def elGraphId : Yaml → Except Err String
  | .map m =>
      match mapLookup m "id" with
      | some (.str s) => .ok s
      | some _ => .error .typeErr
      | none => .error (.keyError "id")
  | _ => .error .typeErr

/-- graphFind embeds the search loop of _get_id_from_graph, keeping the list
index of the found element (the index is what in-place mutation of the
element needs later).  On failure it returns the ids of all elements, in
order, for the exception message. -/
def graphFind (id0 : String) (i : Nat) : List Yaml → Except Err ((Nat × Yaml) ⊕ List String)
  | [] => .ok (.inr [])
  | el :: rest =>
      match elGraphId el with
      | .error e => .error e
      | .ok s =>
          if lstripHash s = id0 then .ok (.inl (i, el))
          else
            match graphFind id0 (i + 1) rest with
            | .error e => .error e
            | .ok (.inl hit) => .ok (.inl hit)
            | .ok (.inr ids) => .ok (.inr (s :: ids))

/-- gtmMsg is the message of the GraphTargetMissingException raised by
_get_id_from_graph. -/
def gtmMsg (ids : List String) : String :=
  "Tool file contains graph of multiple objects, must specify one of #"
    ++ String.intercalate ", #" ids

/-- get_id_from_graph embeds _get_id_from_graph: default the fragment id to
"main", scan yaml["$graph"] for the first element whose id with leading
number signs stripped equals it, and raise GraphTargetMissingException when
no element matches. -/
def get_id_from_graph (y : Yaml) (id? : Option String) : Except Err Yaml :=
  let id0 := id?.getD "main"
  match y with
  | .map m =>
      match mapLookup m "$graph" with
      | some (.list els) =>
          match graphFind id0 0 els with
          | .error e => .error e
          | .ok (.inl hit) => .ok hit.2
          | .ok (.inr ids) => .error (.graphTargetMissing (gtmMsg ids))
      | some _ => .error .typeErr
      | none => .error (.keyError "$graph")
  | _ => .error .typeErr

/-- LoaderTag names the three generated per-version parser modules. -/
inductive LoaderTag where
  | v10 | v11 | v12
deriving DecidableEq, Repr

/-- LoadedObj is the model of an object built by one of the external
versioned parsers: it records which parser built it, the document and base
uri it was given, the attribute names of the object, and the value of its
cwlVersion attribute (Yaml.null when unset, as in Python). -/
structure LoadedObj where
  tag : LoaderTag
  doc : Yaml
  uri : String
  attrs : List String
  cwlVersion : Yaml
deriving DecidableEq

/-- LoadResult distinguishes the two shapes the external loaders return: a
single loaded object, or a list of objects for a $graph document. -/
inductive LoadResult where
  | one (o : LoadedObj)
  | many (os : List LoadedObj)
deriving DecidableEq

/-- mkLoaded is part of the model of the external loaders: the object built
from one document, with its attribute names taken from the document keys. -/
def mkLoaded (tag : LoaderTag) (doc : Yaml) (uri : String) : LoadedObj :=
  { tag := tag
    doc := doc
    uri := uri
    attrs := match doc with | .map m => m.map Prod.fst | _ => []
    cwlVersion := match doc with
      | .map m => (mapLookup m "cwlVersion").getD .null
      | _ => .null }

/-- Modelled from the spec: the external cwl_v1_X.load_document_by_yaml of
the generated parser modules (absent from src/) builds typed objects from a
document, producing a list of objects for a $graph container and a single
object otherwise; schema validation is abstracted away. -/
def versionedLoad (tag : LoaderTag) (doc : Yaml) (uri : String) (_lo : Option Unit) : LoadResult :=
  match doc with
  | .map m =>
      match mapLookup m "$graph" with
      | some (.list els) => .many (els.map (fun el => mkLoaded tag el uri))
      | _ => .one (mkLoaded tag doc uri)
  | _ => .one (mkLoaded tag doc uri)

mutual
/-- pyReprY approximates the Python repr of a plain value, used only to
render exception message text. -/
def pyReprY : Yaml → String
  | .null => "None"
  | .bool b => if b then "True" else "False"
  | .int n => toString n
  | .str s => "\x27" ++ s ++ "\x27"
  | .list xs => "[" ++ pyReprList xs ++ "]"
  | .map m => "\x7b" ++ pyReprMap m ++ "\x7d"

def pyReprList : List Yaml → String
  | [] => ""
  | [x] => pyReprY x
  | x :: rest => pyReprY x ++ ", " ++ pyReprList rest

def pyReprMap : List (String × Yaml) → String
  | [] => ""
  | [(k, v)] => "\x27" ++ k ++ "\x27: " ++ pyReprY v
  | (k, v) :: rest => "\x27" ++ k ++ "\x27: " ++ pyReprY v ++ ", " ++ pyReprMap rest
end

/-- pyStrY approximates Python str() of a plain value, as interpolated into
the unrecognised-version message. -/
def pyStrY : Yaml → String
  | .str s => s
  | y => pyReprY y

/-- postProcess embeds the tail of load_document_by_yaml: when the versioned
loader returned a list, every object that has a cwlVersion attribute gets it
overwritten with the top-level version. -/
def postProcess (r : LoadResult) (version : Yaml) : LoadResult :=
  match r with
  | .one o => .one o
  | .many os =>
      .many (os.map (fun o =>
        if o.attrs.contains "cwlVersion" then { o with cwlVersion := version } else o))

/-- dispatch embeds the version conditional chain of load_document_by_yaml:
three recognised revisions forward to the matching versioned loader, a
missing version and an unrecognised version raise ValidationException. -/
def dispatch (doc : Yaml) (uri : String) (lo : Option Unit) (version : Yaml) : Except Err LoadResult :=
  if version = .str "v1.0" then .ok (postProcess (versionedLoad .v10 doc uri lo) version)
  else if version = .str "v1.1" then .ok (postProcess (versionedLoad .v11 doc uri lo) version)
  else if version = .str "v1.2" then .ok (postProcess (versionedLoad .v12 doc uri lo) version)
  else if version = .null then .error (.validationException "could not get the cwlVersion")
  else .error (.validationException
    ("Version error. Did not recognise " ++ pyStrY version ++ " as a CWL version"))

/-- graphStep embeds lines 197-199 of load_document_by_yaml: when the
mapping contains "$graph" and load_all is false, select the element matching
the fragment id and overwrite its cwlVersion entry in place with the
top-level version.  It returns the document to dispatch next to the final
state of the whole input mapping. -/
def graphStep (m : List (String × Yaml)) (version : Yaml) (id? : Option String)
    (load_all : Bool) : Except Err (Yaml × Yaml) :=
  match mapLookup m "$graph", load_all with
  | some g, false =>
      match g with
      | .list els =>
          match graphFind (id?.getD "main") 0 els with
          | .error e => .error e
          | .ok (.inr ids) => .error (.graphTargetMissing (gtmMsg ids))
          | .ok (.inl (i, el)) =>
              let el2 := setKeyY el "cwlVersion" version
              .ok (el2, .map (mapSet m "$graph" (.list (els.set i el2))))
      | _ => .error .typeErr
  | _, _ => .ok (.map m, .map m)

/-- load_document_by_yaml embeds load_document_by_yaml of
cwl_utils/parser/__init__.py.  The second component of the result is the
final state of the yaml object the caller passed in: the $graph branch
mutates the selected element in place before dispatching, and the mutation
survives even when dispatch later raises. -/
def load_document_by_yaml (y : Yaml) (uri : String) (lo : Option Unit)
    (id? : Option String) (load_all : Bool) : Except Err LoadResult × Yaml :=
  match cwl_version y with
  | .error e => (.error e, y)
  | .ok version =>
      match y with
      | .map m =>
          match graphStep m version id? load_all with
          | .error e => (.error e, y)
          | .ok (doc, y2) => (dispatch doc uri lo version, y2)
      | _ => (dispatch y uri lo version, y)

/-- load_document_by_string embeds load_document_by_string; the external
yaml_no_ts parser is abstracted as the `parse` argument. -/
def load_document_by_string (parse : String → Yaml) (s : String) (uri : String)
    (lo : Option Unit) (id? : Option String) (load_all : Bool) : Except Err LoadResult × Yaml :=
  load_document_by_yaml (parse s) uri lo id? load_all

/-- load_document embeds load_document; `cwdUri` stands for the value of
cwl_v1_0.file_uri(os.getcwd()).  Note the string branch of the source calls
load_document_by_string without the load_all argument, so that parameter
falls back to its default False there. -/
def load_document (parse : String → Yaml) (cwdUri : String) (doc : String ⊕ Yaml)
    (baseuri : Option String) (lo : Option Unit) (id? : Option String)
    (load_all : Bool) : Except Err LoadResult × Yaml :=
  let base := baseuri.getD (cwdUri ++ "/")
  match doc with
  | .inl s => load_document_by_string parse s base lo id? false
  | .inr y => load_document_by_yaml y base lo id? load_all

/-! Embedding of save, is_process and version_split. -/

/-- Val models the argument space of save: a typed object produced by one of
the external parser modules (a Saveable, carrying its plain-data
serialization as computed by its external save method, and whether it is an
instance of a Process class), a list, a dict, or any other plain value that
save returns unchanged.  The base_url and relative_uris parameters of the
source are forwarded only to the external per-object save call, which this
model abstracts as the stored serialization, so they are omitted here. -/
inductive Val where
  | saveable (isProc : Bool) (saved : Yaml) : Val
  | vlist (xs : List Val) : Val
  | vmap (m : List (String × Val)) : Val
  | raw (y : Yaml) : Val

/-- is_process embeds is_process: an isinstance check against the three
Process classes, which only a typed object can satisfy. -/
def is_process : Val → Bool
  | .saveable p _ => p
  | _ => false

/-- digitsVal folds a non-empty all-digit character list into its value;
none on an empty list or a non-digit. -/
def digitsVal (acc : Nat) : List Char → Option Nat
  | [] => some acc
  | c :: rest => if c.isDigit then digitsVal (10 * acc + (c.toNat - 48)) rest else none

/-- pyInt models the Python int() conversion applied to each dotted
component of a version string: surrounding whitespace and one leading sign
are accepted, anything else that is not a digit string raises ValueError
(digit grouping with underscores is not modelled). -/
def pyInt (s : String) : Except Err Int :=
  let cs := ((s.data.dropWhile Char.isWhitespace).reverse.dropWhile Char.isWhitespace).reverse
  match cs with
  | '-' :: rest =>
      match rest with
      | [] => .error .valueError
      | _ =>
        match digitsVal 0 rest with
        | some n => .ok (-(n : Int))
        | none => .error .valueError
  | '+' :: rest =>
      match rest with
      | [] => .error .valueError
      | _ =>
        match digitsVal 0 rest with
        | some n => .ok (n : Int)
        | none => .error .valueError
  | [] => .error .valueError
  | rest =>
      match digitsVal 0 rest with
      | some n => .ok (n : Int)
      | none => .error .valueError

/-- splitDotAux splits a character list at every dot, Python str.split
style: the empty input gives one empty piece. -/
def splitDotAux (acc : List Char) : List Char → List String
  | [] => [String.mk acc.reverse]
  | c :: rest =>
      if c = '.' then String.mk acc.reverse :: splitDotAux [] rest
      else splitDotAux (c :: acc) rest

/-- pySplitDot models the Python expression s.split("."). -/
def pySplitDot (s : String) : List String :=
  splitDotAux [] s.data

/-- mapPyInt converts every piece with int(), stopping at the first
failure. -/
def mapPyInt : List String → Except Err (List Int)
  | [] => .ok []
  | s :: rest =>
      match pyInt s with
      | .error e => .error e
      | .ok n =>
          match mapPyInt rest with
          | .error e => .error e
          | .ok ns => .ok (n :: ns)

/-- version_split embeds version_split: drop the leading character of the
version string, split on dots, convert each piece with int(). -/
def version_split (version : String) : Except Err (List Int) :=
  mapPyInt (pySplitDot (String.mk (version.data.drop 1)))

/-- versionKey applies version_split to a value taken from a serialized
document; a non-string raises TypeError inside the key function. -/
def versionKey : Yaml → Except Err (List Int)
  | .str s => version_split s
  | _ => .error .typeErr

/-- intListLt is the Python strict comparison of two lists of integers:
lexicographic, with a proper prefix smaller than the longer list. -/
def intListLt : List Int → List Int → Bool
  | [], [] => false
  | [], _ :: _ => true
  | _ :: _, [] => false
  | a :: as, b :: bs => decide (a < b) || (decide (a = b) && intListLt as bs)

/-- pyMaxGo is the scan of Python max with a key function: keep the current
element unless a strictly greater key appears, so the first element with the
maximal key wins. -/
def pyMaxGo (cur : Yaml) (curK : List Int) : List Yaml → Except Err Yaml
  | [] => .ok cur
  | x :: rest =>
      match versionKey x with
      | .error e => .error e
      | .ok k =>
          if intListLt curK k then pyMaxGo x k rest else pyMaxGo cur curK rest

/-- pyMaxBy embeds the call max(iterable, key=version_split) of save: a
ValueError on an empty iterable, else the first element with the greatest
key. -/
def pyMaxBy (xs : List Yaml) : Except Err Yaml :=
  match xs with
  | [] => .error .valueError
  | x :: rest =>
      match versionKey x with
      | .error e => .error e
      | .ok k => pyMaxGo x k rest

/-- eGet models the Python expression e.get("cwlVersion") on a serialized
element: None when the key is absent, AttributeError (collapsed to typeErr)
when e is not a dict. -/
def eGet (e : Yaml) (k : String) : Except Err Yaml :=
  match e with
  | .map m => .ok ((mapLookup m k).getD .null)
  | _ => .error .typeErr

/-- versOf embeds the comprehension building vers in save: walk the
serialized list and the original list together, keeping e.get("cwlVersion")
of the serialized element whenever the original element is a Process. -/
def versOf : List Yaml → List Val → Except Err (List Yaml)
  | [], _ => .ok []
  | _ :: _, [] => .ok []
  | e :: es, v :: vs =>
      if is_process v then
        match eGet e "cwlVersion" with
        | .error err => .error err
        | .ok g =>
            match versOf es vs with
            | .error err => .error err
            | .ok rest => .ok (g :: rest)
      else versOf es vs

mutual
/-- save embeds save of cwl_utils/parser/__init__.py: a Saveable serializes
through its external save method; a list serializes elementwise and, at top
level with every element a Process, is wrapped into a dict with the latest
cwlVersion and a $graph key; a dict serializes its values with top=False;
anything else is returned unchanged. -/
def save : Val → Bool → Except Err Yaml
  | .saveable _ svd, _ => .ok svd
  | .vlist xs, top =>
      match saveList xs top with
      | .error e => .error e
      | .ok lst =>
          if top && xs.all is_process then
            match versOf lst xs with
            | .error e => .error e
            | .ok vers =>
                match pyMaxBy (vers.filter (fun v => decide (v ≠ .null))) with
                | .error e => .error e
                | .ok latest => .ok (.map [("cwlVersion", latest), ("$graph", .list lst)])
          else .ok (.list lst)
  | .vmap m, _ =>
      match saveMap m with
      | .error e => .error e
      | .ok m2 => .ok (.map m2)
  | .raw y, _ => .ok y

/-- saveList is the elementwise serialization of a list, forwarding the top
flag as the source comprehension does. -/
def saveList : List Val → Bool → Except Err (List Yaml)
  | [], _ => .ok []
  | v :: vs, top =>
      match save v top with
      | .error e => .error e
      | .ok y =>
          match saveList vs top with
          | .error e => .error e
          | .ok ys => .ok (y :: ys)

/-- saveMap is the key-by-key serialization of a dict, with top=False as in
the source. -/
def saveMap : List (String × Val) → Except Err (List (String × Yaml))
  | [] => .ok []
  | (k, v) :: rest =>
      match save v false with
      | .error e => .error e
      | .ok y =>
          match saveMap rest with
          | .error e => .error e
          | .ok r => .ok ((k, y) :: r)
end

/-! Embedding of cite_extract.py. -/

/-- SoftwarePackage models a cwl_v1_0 SoftwarePackage object: a package
name, and optional lists of version strings and spec uris. -/
structure SoftwarePackage where
  package : String
  version : Option (List String)
  specs : Option (List String)
deriving DecidableEq

/-- SoftwareRequirement models a cwl_v1_0 SoftwareRequirement object: its
list of packages. -/
structure SoftwareRequirement where
  packages : List SoftwarePackage
deriving DecidableEq

/-- ReqEntry models one element of the requirements field of a loaded
process: either a SoftwareRequirement instance or an instance of some other
requirement class. -/
inductive ReqEntry where
  | software (r : SoftwareRequirement) : ReqEntry
  | other (cls : String) : ReqEntry
deriving DecidableEq

/-- ProcAttrs groups the attributes of a loaded object that cite_extract.py
reads: id, requirements and hints.  Both processes and workflow steps carry
them, matching the duck typing of extract_software_packages.  Hints are kept
as the raw dicts the v1.0 parser stores. -/
structure ProcAttrs where
  id : Option String
  requirements : Option (List ReqEntry)
  hints : Option (List Yaml)

mutual
/-- ProcT models a loaded cwl_v1_0 process: a Workflow with its steps, or
any non-Workflow process (CommandLineTool, ExpressionTool). -/
inductive ProcT where
  | tool (a : ProcAttrs) : ProcT
  | workflow (a : ProcAttrs) (steps : List StepT) : ProcT

/-- StepT models a WorkflowStep: its own attributes and its run field. -/
inductive StepT where
  | mk (a : ProcAttrs) (run : RunT) : StepT

/-- RunT models the run field of a step: a uri string to be loaded, or an
embedded process object. -/
inductive RunT where
  | uri (s : String) : RunT
  | proc (p : ProcT) : RunT
end

/-- attrsOf reads the shared attributes of a process. -/
def attrsOf : ProcT → ProcAttrs
  | .tool a => a
  | .workflow a _ => a

/-- stepAttrs reads the shared attributes of a step. -/
def stepAttrs : StepT → ProcAttrs
  | .mk a _ => a

/-- hintClass models the expression req["class"] on a raw hint dict. -/
def hintClass (h : Yaml) : Except Err Yaml :=
  match h with
  | .map m =>
      match mapLookup m "class" with
      | some c => .ok c
      | none => .error (.keyError "class")
  | _ => .error .typeErr

/-- hintsLoop embeds the hints half of extract_software_reqs: every hint
whose class field equals "SoftwareRequirement" is loaded through the
external SoftwareRequirementLoader, abstracted as the lf argument. -/
def hintsLoop (lf : Yaml → Except Err SoftwareRequirement) :
    List Yaml → Except Err (List SoftwareRequirement)
  | [] => .ok []
  | h :: rest =>
      match hintClass h with
      | .error e => .error e
      | .ok c =>
          if c = .str "SoftwareRequirement" then
            match lf h with
            | .error e => .error e
            | .ok r =>
                match hintsLoop lf rest with
                | .error e => .error e
                | .ok rs => .ok (r :: rs)
          else hintsLoop lf rest

/-- reqsLoop embeds the requirements half of extract_software_reqs: keep the
entries that are SoftwareRequirement instances. -/
def reqsLoop : List ReqEntry → List SoftwareRequirement
  | [] => []
  | .software r :: rest => r :: reqsLoop rest
  | .other _ :: rest => reqsLoop rest

/-- extract_software_reqs embeds extract_software_reqs of cite_extract.py as
the list of values the generator yields (an exception raised mid-iteration
aborts the whole run, as it does for the consumers in this file).  A None or
empty requirements or hints value contributes nothing, matching the
truthiness tests of the source. -/
def extract_software_reqs (lf : Yaml → Except Err SoftwareRequirement)
    (a : ProcAttrs) : Except Err (List SoftwareRequirement) :=
  let fromReqs := match a.requirements with
    | none => []
    | some rs => reqsLoop rs
  match a.hints with
  | none => .ok fromReqs
  | some hs =>
      match hintsLoop lf hs with
      | .error e => .error e
      | .ok fromHints => .ok (fromReqs ++ fromHints)

/-- pyShowOptList renders an Optional list of strings the way Python str()
does inside str.format: None prints as None, a list prints its elements
with repr quotes. -/
def pyShowOptList : Option (List String) → String
  | none => "None"
  | some xs =>
      "[" ++ String.intercalate ", " (xs.map (fun s => "\x27" ++ s ++ "\x27")) ++ "]"

/-- process_software_requirement embeds process_software_requirement: one
printed line per package of the requirement. -/
def process_software_requirement (r : SoftwareRequirement) : List String :=
  r.packages.map (fun p =>
    "Package: " ++ p.package ++ ", version: " ++ pyShowOptList p.version
      ++ ", specs: " ++ pyShowOptList p.specs)

/-- extract_software_packages embeds extract_software_packages: for every
software requirement of the process, print the process id and then the
package lines. -/
def extract_software_packages (lf : Yaml → Except Err SoftwareRequirement)
    (a : ProcAttrs) : Except Err (List String) :=
  match extract_software_reqs lf a with
  | .error e => .error e
  | .ok reqs => .ok (reqs.flatMap (fun r => (a.id.getD "None") :: process_software_requirement r))

/-- get_process_from_step embeds get_process_from_step: a string run field
is loaded from its uri through cwl.load_document, abstracted as the resolver
R; an embedded process is used directly. -/
def get_process_from_step (R : String → ProcT) : StepT → ProcT
  | .mk _ (.uri s) => R s
  | .mk _ (.proc p) => p

mutual
/-- traverse embeds traverse of cite_extract.py, with an explicit fuel
argument bounding the recursion depth through sub-processes (the Python
recursion has no such bound; none marks fuel exhaustion): print the package
metadata of the process, and recurse over the steps when it is a Workflow. -/
def traverse (lf : Yaml → Except Err SoftwareRequirement) (R : String → ProcT) :
    Nat → ProcT → Option (Except Err (List String))
  | 0, _ => none
  | fuel + 1, p =>
      match extract_software_packages lf (attrsOf p) with
      | .error e => some (.error e)
      | .ok out0 =>
          match p with
          | .tool _ => some (.ok out0)
          | .workflow _ steps =>
              match traverse_workflow lf R fuel steps with
              | none => none
              | some (.error e) => some (.error e)
              | some (.ok rest) => some (.ok (out0 ++ rest))
termination_by fuel _ => (fuel, 0)

/-- traverse_workflow embeds traverse_workflow: for each step, print the
step package metadata, then traverse the process the step runs. -/
def traverse_workflow (lf : Yaml → Except Err SoftwareRequirement) (R : String → ProcT) :
    Nat → List StepT → Option (Except Err (List String))
  | _, [] => some (.ok [])
  | fuel, s :: rest =>
      match extract_software_packages lf (stepAttrs s) with
      | .error e => some (.error e)
      | .ok out1 =>
          match traverse lf R fuel (get_process_from_step R s) with
          | none => none
          | some (.error e) => some (.error e)
          | some (.ok out2) =>
              match traverse_workflow lf R fuel rest with
              | none => none
              | some (.error e) => some (.error e)
              | some (.ok out3) => some (.ok (out1 ++ out2 ++ out3))
termination_by fuel steps => (fuel, steps.length + 1)
end

mutual
/-- depthP bounds the process-nesting depth of a self-contained process
tree; it is a sufficient fuel for traverse. -/
def depthP : ProcT → Nat
  | .tool _ => 1
  | .workflow _ steps => 1 + depthSteps steps

def depthSteps : List StepT → Nat
  | [] => 0
  | s :: rest => depthStep s + depthSteps rest

def depthStep : StepT → Nat
  | .mk _ (.uri _) => 0
  | .mk _ (.proc p) => depthP p
end

mutual
/-- inlineOnlyP holds when every run field reachable in the tree is an
embedded process, so the tree is self-contained: the finite, acyclic
process tree of the specification. -/
def inlineOnlyP : ProcT → Bool
  | .tool _ => true
  | .workflow _ steps => inlineOnlySteps steps

def inlineOnlySteps : List StepT → Bool
  | [] => true
  | s :: rest => inlineOnlyStep s && inlineOnlySteps rest

def inlineOnlyStep : StepT → Bool
  | .mk _ (.uri _) => false
  | .mk _ (.proc p) => inlineOnlyP p
end

mutual
/-- traverseSpec restates the traversal of the specification as a structural
recursion over a self-contained process tree: the package metadata of the
process, then, for a Workflow, each step contributes its own package
metadata followed by the traversal of its sub-process.  A uri run field
points outside a self-contained tree and contributes nothing here. -/
def traverseSpec (lf : Yaml → Except Err SoftwareRequirement) :
    ProcT → Except Err (List String)
  | .tool a => extract_software_packages lf a
  | .workflow a steps =>
      match extract_software_packages lf a with
      | .error e => .error e
      | .ok out0 =>
          match traverseSpecSteps lf steps with
          | .error e => .error e
          | .ok rest => .ok (out0 ++ rest)

def traverseSpecSteps (lf : Yaml → Except Err SoftwareRequirement) :
    List StepT → Except Err (List String)
  | [] => .ok []
  | s :: rest =>
      match extract_software_packages lf (stepAttrs s) with
      | .error e => .error e
      | .ok out1 =>
          match traverseSpecStep lf s with
          | .error e => .error e
          | .ok out2 =>
              match traverseSpecSteps lf rest with
              | .error e => .error e
              | .ok out3 => .ok (out1 ++ out2 ++ out3)

def traverseSpecStep (lf : Yaml → Except Err SoftwareRequirement) :
    StepT → Except Err (List String)
  | .mk _ (.uri _) => .ok []
  | .mk _ (.proc p) => traverseSpec lf p
end

/-! Vocabulary used by the claim statements. -/

/-- versionTag names the generated parser module matching a recognised
cwlVersion value, none for an unrecognised or missing one. -/
def versionTag : Yaml → Option LoaderTag
  | .str s =>
      if s = "v1.0" then some .v10
      else if s = "v1.1" then some .v11
      else if s = "v1.2" then some .v12
      else none
  | _ => none

/-- isValidation tests whether a loader outcome is a raised
ValidationException. -/
def isValidation : Except Err LoadResult → Bool
  | .error (.validationException _) => true
  | _ => false

/-- resultUsesOnly tests that every object of a loader outcome was built by
the given versioned parser. -/
def resultUsesOnly (tag : LoaderTag) : LoadResult → Bool
  | .one o => o.tag == tag
  | .many os => os.all (fun o => o.tag == tag)

/-- idMatches is the selection predicate of _get_id_from_graph, phrased on
one well-formed element: its id with leading number signs stripped equals
the requested fragment id. -/
def idMatches (id0 : String) (el : Yaml) : Bool :=
  match el with
  | .map m =>
      match mapLookup m "id" with
      | some (.str s) => lstripHash s = id0
      | _ => false
  | _ => false

/-- wellId holds when an element carries a string id, so that the search
loop can inspect it without raising. -/
def wellId (el : Yaml) : Bool :=
  match el with
  | .map m =>
      match mapLookup m "id" with
      | some (.str _) => true
      | _ => false
  | _ => false

/-- idOf reads the id of a well-formed element (empty on an ill-formed one,
which wellId excludes). -/
def idOf (el : Yaml) : String :=
  match el with
  | .map m =>
      match mapLookup m "id" with
      | some (.str s) => s
      | _ => ""
  | _ => ""

/-- savedOf reads the external serialization stored in a Saveable model
value. -/
def savedOf : Val → Yaml
  | .saveable _ svd => svd
  | _ => .null

/-- swOf keeps the SoftwareRequirement instances of a requirements list, as
the specification of reqsLoop. -/
def swOf : List ReqEntry → List SoftwareRequirement :=
  List.filterMap (fun r => match r with
    | .software x => some x
    | .other _ => none)

/-- hintIsSW tests whether a well-formed hint declares the
SoftwareRequirement class. -/
def hintIsSW (h : Yaml) : Bool :=
  match h with
  | .map m => mapLookup m "class" = some (.str "SoftwareRequirement")
  | _ => false

/-- mapLf loads each selected hint through the external loader, stopping at
the first failure, as the specification of the hints loop. -/
def mapLf (lf : Yaml → Except Err SoftwareRequirement) :
    List Yaml → Except Err (List SoftwareRequirement)
  | [] => .ok []
  | h :: rest =>
      match lf h with
      | .error e => .error e
      | .ok r =>
          match mapLf lf rest with
          | .error e => .error e
          | .ok rs => .ok (r :: rs)

/-- c4doc is a two-process $graph document with a main element, used to
exhibit the load_all forwarding slip of load_document. -/
def c4doc : Yaml := .map [("cwlVersion", .str "v1.0"),
  ("$graph", .list [.map [("id", .str "main")], .map [("id", .str "other")]])]

/-- c4parse stands for the yaml_no_ts parse of the serialized form of
c4doc. -/
def c4parse : String → Yaml := fun _ => c4doc

/-- hintHasClass tests that a hint is a dict carrying a class key, so the
hints loop can inspect it without raising. -/
def hintHasClass (h : Yaml) : Bool :=
  match h with
  | .map m => (mapLookup m "class").isSome
  | _ => false

/-- c7lf is a concrete stand-in for the external SoftwareRequirementLoader
used by the witnesses. -/
def c7lf : Yaml → Except Err SoftwareRequirement :=
  fun _ => .ok ⟨[⟨"pkgB", none, none⟩]⟩

/-- c7attrs is a concrete process for the extract_software_reqs witness: one
SoftwareRequirement and one other entry among the requirements, one
SoftwareRequirement-classed hint and one other hint. -/
def c7attrs : ProcAttrs :=
  ⟨some "proc", some [.software ⟨[⟨"pkgA", some ["1.0"], none⟩]⟩, .other "DockerRequirement"],
    some [.map [("class", .str "SoftwareRequirement")], .map [("class", .str "EnvVarRequirement")]]⟩

/-- c6proc is a concrete two-level workflow for the traversal witness: one
step running an embedded tool. -/
def c6proc : ProcT :=
  .workflow ⟨some "w", some [.software ⟨[⟨"pkgW", none, none⟩]⟩], none⟩
    [.mk ⟨some "s", none, none⟩ (.proc (.tool ⟨some "t", none, none⟩))]

/-- c6resolver is a concrete resolver standing for cwl.load_document on a
run uri. -/
def c6resolver : String → ProcT := fun _ => .tool ⟨none, none, none⟩

/-- c8proc is a concrete nested workflow for the termination witness. -/
def c8proc : ProcT :=
  .workflow ⟨some "outer", none, none⟩
    [.mk ⟨some "s1", none, none⟩
      (.proc (.workflow ⟨some "inner", none, none⟩
        [.mk ⟨some "s2", none, none⟩ (.proc (.tool ⟨some "leaf", none, none⟩))]))]

/-! Helper lemmas. -/

theorem mapLookup_isSome_iff_contains (m : List (String × Yaml)) (k : String) :
    (mapLookup m k).isSome = (m.map Prod.fst).contains k := by
  induction m with
  | nil => simp [mapLookup]
  | cons kv rest ih =>
      obtain ⟨k0, v0⟩ := kv
      by_cases h : k0 = k
      · subst h
        simp [mapLookup, List.contains, List.elem]
      · simp only [mapLookup, if_neg h, List.map_cons, List.contains, List.elem] at *
        have hb : (k == k0) = false := beq_eq_false_iff_ne.mpr (fun hh => h hh.symm)
        rw [hb]
        exact ih

theorem cwl_version_map (m : List (String × Yaml)) :
    cwl_version (.map m) = .ok ((mapLookup m "cwlVersion").getD .null) := by
  simp only [cwl_version]
  rcases h : mapLookup m "cwlVersion" with _ | v
  · have hc : (m.map Prod.fst).contains "cwlVersion" = false := by
      rw [← mapLookup_isSome_iff_contains, h]
      rfl
    rw [hc]
    rfl
  · have hc : (m.map Prod.fst).contains "cwlVersion" = true := by
      rw [← mapLookup_isSome_iff_contains, h]
      rfl
    rw [hc]
    rfl

theorem usesOnly_versionedLoad (tag : LoaderTag) (doc : Yaml) (uri : String)
    (lo : Option Unit) (ver : Yaml) :
    resultUsesOnly tag (postProcess (versionedLoad tag doc uri lo) ver) = true := by
  have hone : ∀ d, resultUsesOnly tag (postProcess (.one (mkLoaded tag d uri)) ver) = true := by
    intro d
    simp [postProcess, resultUsesOnly, mkLoaded]
  rcases doc with _ | b | n | s | xs | m
  · exact hone _
  · exact hone _
  · exact hone _
  · exact hone _
  · exact hone _
  · simp only [versionedLoad]
    rcases hg : mapLookup m "$graph" with _ | g
    · exact hone _
    · rcases g with _ | b | n | s | els | mm
      · exact hone _
      · exact hone _
      · exact hone _
      · exact hone _
      · simp only [postProcess, resultUsesOnly, List.map_map, List.all_eq_true]
        intro o ho
        rcases List.mem_map.mp ho with ⟨el, -, rfl⟩
        simp only [Function.comp]
        split <;> simp [mkLoaded]
      · exact hone _

theorem dispatch_ok_tag (doc : Yaml) (uri : String) (lo : Option Unit) (ver : Yaml)
    (r : LoadResult) (h : dispatch doc uri lo ver = .ok r) :
    ∃ tag, versionTag ver = some tag ∧ resultUsesOnly tag r = true := by
  unfold dispatch at h
  split_ifs at h with h1 h2 h3 h4
  · refine ⟨.v10, by rw [h1]; rfl, ?_⟩
    cases h
    exact usesOnly_versionedLoad _ _ _ _ _
  · refine ⟨.v11, by rw [h2]; rfl, ?_⟩
    cases h
    exact usesOnly_versionedLoad _ _ _ _ _
  · refine ⟨.v12, by rw [h3]; rfl, ?_⟩
    cases h
    exact usesOnly_versionedLoad _ _ _ _ _

theorem dispatch_not_recognized (doc : Yaml) (uri : String) (lo : Option Unit)
    (ver : Yaml) (h : versionTag ver = none) :
    isValidation (dispatch doc uri lo ver) = true := by
  unfold dispatch
  split_ifs with h1 h2 h3 h4
  · rw [h1] at h
    simp [versionTag] at h
  · rw [h2] at h
    simp [versionTag] at h
  · rw [h3] at h
    simp [versionTag] at h
  · rfl
  · rfl

theorem fst_ok_shape (y : Yaml) (uri : String) (lo : Option Unit) (id? : Option String)
    (la : Bool) (r : LoadResult)
    (h : (load_document_by_yaml y uri lo id? la).fst = .ok r) :
    ∃ doc ver, cwl_version y = .ok ver ∧ dispatch doc uri lo ver = .ok r := by
  unfold load_document_by_yaml at h
  rcases y with _ | b | n | s | xs | m
  · simp [cwl_version] at h
  · simp [cwl_version] at h
  · simp [cwl_version] at h
  · simp [cwl_version] at h
  · simp [cwl_version] at h
  · rw [cwl_version_map m] at h
    simp only [] at h
    rcases hg : graphStep m ((mapLookup m "cwlVersion").getD .null) id? la with e | ⟨doc, y2⟩
    · rw [hg] at h
      simp at h
    · rw [hg] at h
      exact ⟨doc, _, cwl_version_map m, h⟩

theorem graphStep_skip (m : List (String × Yaml)) (ver : Yaml) (id? : Option String)
    (la : Bool) (h : mapLookup m "$graph" = none ∨ la = true) :
    graphStep m ver id? la = .ok (.map m, .map m) := by
  rcases h with h | h
  · unfold graphStep
    rw [h]
  · subst h
    unfold graphStep
    rcases mapLookup m "$graph" with _ | g
    · rfl
    · rfl

theorem ldby_skip_graph (m : List (String × Yaml)) (uri : String) (lo : Option Unit)
    (id? : Option String) (la : Bool) (h : mapLookup m "$graph" = none ∨ la = true) :
    load_document_by_yaml (.map m) uri lo id? la
      = (dispatch (.map m) uri lo ((mapLookup m "cwlVersion").getD .null), .map m) := by
  unfold load_document_by_yaml
  rw [cwl_version_map m]
  simp only []
  rw [graphStep_skip m _ id? la h]

/-! Claim theorems. -/

/-- Claim C9, counterexample: cwl_version of the mapping storing None under
"cwlVersion" returns None even though the key is present, so the claim that
None is returned exactly when the key is absent fails. -/
theorem claim9_counterexample :
    cwl_version (Yaml.map [("cwlVersion", Yaml.null)]) = .ok Yaml.null
    ∧ (mapLookup [("cwlVersion", Yaml.null)] "cwlVersion").isSome = true := by
  decide

/-- Claim C9, amended: cwl_version raises ValidationException exactly when
its argument is not a MutableMapping; on a mapping it returns the value
stored under "cwlVersion" unchanged when the key is present, and returns
None when the key is absent (so a present None value is indistinguishable
from an absent key in the result). -/
theorem claim9_cwl_version :
    (∀ m, cwl_version (.map m) = .ok ((mapLookup m "cwlVersion").getD .null))
    ∧ (∀ y : Yaml, (∀ m, y ≠ .map m) →
        cwl_version y = .error (.validationException "MutableMapping is required"))
    ∧ (∀ y e, cwl_version y = .error e → ∀ m, y ≠ .map m) := by
  refine ⟨cwl_version_map, ?_, ?_⟩
  · intro y hy
    rcases y with _ | b | n | s | xs | m
    · rfl
    · rfl
    · rfl
    · rfl
    · rfl
    · exact absurd rfl (hy m)
  · intro y e h m heq
    subst heq
    rw [cwl_version_map] at h
    simp at h

/-- Claim C9, witness for the amended theorem at concrete inputs. -/
theorem claim9_witness :
    cwl_version (Yaml.map [("a", Yaml.int 1)]) = .ok Yaml.null
    ∧ cwl_version (Yaml.str "x")
        = .error (.validationException "MutableMapping is required") := by
  constructor
  · have h := claim9_cwl_version.1 [("a", Yaml.int 1)]
    simpa [mapLookup] using h
  · exact claim9_cwl_version.2.1 (Yaml.str "x") (fun m => by simp)

/-- Claim C2, counterexample: a mapping with an absent cwlVersion whose
$graph elements lack an id makes load_document_by_yaml raise KeyError from
the selection loop, not a ValidationException, so the claim fails as stated
over all mappings. -/
theorem claim2_counterexample :
    (load_document_by_yaml (.map [("$graph", .list [.map []])]) "u" none none false).fst
      = .error (.keyError "id")
    ∧ isValidation
        (load_document_by_yaml (.map [("$graph", .list [.map []])]) "u" none none false).fst
      = false := by
  decide

/-- Claim C2, amended: for every YAML mapping that either lacks "$graph" or
is loaded with load_all=True, a missing or unrecognised cwlVersion makes
load_document_by_yaml raise a ValidationException; and, for every input
whatsoever, a successful load implies the declared version is one of v1.0,
v1.1, v1.2. -/
theorem claim2_versions (m : List (String × Yaml)) (uri : String) (lo : Option Unit)
    (id? : Option String) (la : Bool)
    (hg : mapLookup m "$graph" = none ∨ la = true)
    (hv : versionTag ((mapLookup m "cwlVersion").getD .null) = none) :
    isValidation (load_document_by_yaml (.map m) uri lo id? la).fst = true
    ∧ ∀ (y : Yaml) (uri2 : String) (lo2 : Option Unit) (id2 : Option String) (la2 : Bool)
        (r : LoadResult), (load_document_by_yaml y uri2 lo2 id2 la2).fst = .ok r →
          ∃ ver, cwl_version y = .ok ver ∧ (versionTag ver).isSome = true := by
  constructor
  · rw [ldby_skip_graph m uri lo id? la hg]
    exact dispatch_not_recognized _ _ _ _ hv
  · intro y uri2 lo2 id2 la2 r h
    obtain ⟨doc, ver, hcv, hd⟩ := fst_ok_shape y uri2 lo2 id2 la2 r h
    obtain ⟨tag, htag, -⟩ := dispatch_ok_tag doc uri2 lo2 ver r hd
    exact ⟨ver, hcv, by rw [htag]; rfl⟩

/-- Claim C2, witness for the amended theorem: a mapping declaring the
unrecognised version v0.9 and one with no version at all both raise a
ValidationException. -/
theorem claim2_witness :
    isValidation
      (load_document_by_yaml (.map [("cwlVersion", .str "v0.9")]) "u" none none false).fst
    = true := by
  exact (claim2_versions [("cwlVersion", .str "v0.9")] "u" none none false
    (Or.inl (by decide)) (by decide)).1

/-- Claim C4: load_document drops the load_all argument when forwarding a
string input to load_document_by_string, so with load_all=True a serialized
$graph document yields only the selected main element from load_document,
while load_document_by_string called directly with load_all=True yields
every document of the container. -/
theorem claim4_load_all_dropped :
    (load_document c4parse "file:///cwd" (.inl "doc") (some "file:///u") none none true).fst
      = .ok (.one (mkLoaded .v10 (.map [("id", .str "main"), ("cwlVersion", .str "v1.0")])
          "file:///u"))
    ∧ (load_document_by_string c4parse "doc" "file:///u" none none true).fst
      = .ok (.many [mkLoaded .v10 (.map [("id", .str "main")]) "file:///u",
          mkLoaded .v10 (.map [("id", .str "other")]) "file:///u"])
    ∧ (load_document c4parse "file:///cwd" (.inl "doc") (some "file:///u") none none true).fst
      ≠ (load_document_by_string c4parse "doc" "file:///u" none none true).fst := by
  refine ⟨by decide, by decide, by decide⟩

/-- Claim C1: for every YAML mapping declaring cwlVersion v1.0, v1.1 or
v1.2, every object load_document_by_yaml produces was built by the matching
versioned loader and by no other; and when no $graph selection intervenes
(no $graph key, or load_all=True) the load succeeds with that loader. -/
theorem claim1_dispatch (m : List (String × Yaml)) (uri : String) (lo : Option Unit)
    (id? : Option String) (la : Bool) (v : String) (tag : LoaderTag)
    (hv : mapLookup m "cwlVersion" = some (.str v))
    (ht : (v = "v1.0" ∧ tag = .v10) ∨ (v = "v1.1" ∧ tag = .v11)
      ∨ (v = "v1.2" ∧ tag = .v12)) :
    (∀ r, (load_document_by_yaml (.map m) uri lo id? la).fst = .ok r →
        resultUsesOnly tag r = true)
    ∧ ((mapLookup m "$graph" = none ∨ la = true) →
        ∃ r, (load_document_by_yaml (.map m) uri lo id? la).fst = .ok r
          ∧ resultUsesOnly tag r = true) := by
  have hver : (mapLookup m "cwlVersion").getD .null = .str v := by
    rw [hv]
    rfl
  constructor
  · intro r h
    obtain ⟨doc, ver, hcv, hd⟩ := fst_ok_shape _ uri lo id? la r h
    rw [cwl_version_map, hver] at hcv
    injection hcv with h2
    subst h2
    obtain ⟨tag2, htag, huses⟩ := dispatch_ok_tag doc uri lo _ r hd
    rcases ht with ⟨rfl, rfl⟩ | ⟨rfl, rfl⟩ | ⟨rfl, rfl⟩ <;>
      · simp [versionTag] at htag
        rw [← htag] at huses
        exact huses
  · intro hg
    rw [ldby_skip_graph m uri lo id? la hg]
    simp only []
    rw [hver]
    rcases ht with ⟨rfl, rfl⟩ | ⟨rfl, rfl⟩ | ⟨rfl, rfl⟩ <;>
      exact ⟨_, rfl, usesOnly_versionedLoad _ _ _ _ _⟩

/-- Claim C1, witness: a plain v1.1 document loads through the v1.1 parser
only. -/
theorem claim1_witness :
    mapLookup [("cwlVersion", Yaml.str "v1.1")] "cwlVersion" = some (.str "v1.1")
    ∧ ∃ r, (load_document_by_yaml (.map [("cwlVersion", .str "v1.1")]) "u" none none
        false).fst = .ok r ∧ resultUsesOnly .v11 r = true := by
  refine ⟨by decide, ?_⟩
  exact (claim1_dispatch [("cwlVersion", .str "v1.1")] "u" none none false "v1.1" .v11
    (by decide) (Or.inr (Or.inl ⟨rfl, rfl⟩))).2 (Or.inl (by decide))

theorem elGraphId_of_wellId (el : Yaml) (hw : wellId el = true) :
    elGraphId el = .ok (idOf el) := by
  rcases el with _ | b | n | s | xs | m
  · simp [wellId] at hw
  · simp [wellId] at hw
  · simp [wellId] at hw
  · simp [wellId] at hw
  · simp [wellId] at hw
  · simp only [wellId] at hw
    simp only [elGraphId, idOf]
    rcases hl : mapLookup m "id" with _ | y
    · simp only [hl] at hw
      simp at hw
    · simp only [hl] at hw ⊢
      rcases y with _ | b | n | s | xs | mm
      · simp at hw
      · simp at hw
      · simp at hw
      · rfl
      · simp at hw
      · simp at hw

theorem wellId_spec (el : Yaml) (hw : wellId el = true) :
    ∃ em s, el = .map em ∧ mapLookup em "id" = some (.str s) ∧ idOf el = s := by
  rcases el with _ | b | n | s | xs | m
  · simp [wellId] at hw
  · simp [wellId] at hw
  · simp [wellId] at hw
  · simp [wellId] at hw
  · simp [wellId] at hw
  · simp only [wellId] at hw
    rcases hl : mapLookup m "id" with _ | y
    · rw [hl] at hw
      simp at hw
    · rw [hl] at hw
      rcases y with _ | b | n | s | xs | mm
      · simp at hw
      · simp at hw
      · simp at hw
      · exact ⟨m, s, rfl, hl, by simp only [idOf, hl]⟩
      · simp at hw
      · simp at hw

theorem idMatches_eq (id0 : String) (el : Yaml) (hw : wellId el = true) :
    idMatches id0 el = decide (lstripHash (idOf el) = id0) := by
  obtain ⟨em, s, rfl, hq, hid⟩ := wellId_spec el hw
  rw [hid]
  simp only [idMatches, hq]

theorem graphFind_spec (id0 : String) : ∀ (els : List Yaml) (n : Nat),
    (∀ el ∈ els, wellId el = true) →
    ((∀ el, els.find? (idMatches id0) = some el →
        ∃ i, graphFind id0 n els = .ok (.inl (i, el)))
     ∧ (els.find? (idMatches id0) = none →
        graphFind id0 n els = .ok (.inr (els.map idOf)))) := by
  intro els
  induction els with
  | nil =>
      intro n hw
      exact ⟨fun el h => by simp at h, fun _ => rfl⟩
  | cons e rest ih =>
      intro n hw
      have hwe : wellId e = true := hw e (by simp)
      have hwr : ∀ el ∈ rest, wellId el = true := fun el hm => hw el (by simp [hm])
      have hgid := elGraphId_of_wellId e hwe
      by_cases hm : idMatches id0 e = true
      · have hfind : (e :: rest).find? (idMatches id0) = some e :=
          List.find?_cons_of_pos _ hm
        have hmatch : lstripHash (idOf e) = id0 := by
          rw [idMatches_eq id0 e hwe] at hm
          exact of_decide_eq_true hm
        constructor
        · intro el h
          rw [hfind] at h
          injection h with h
          subst h
          refine ⟨n, ?_⟩
          unfold graphFind
          simp only [hgid]
          rw [if_pos hmatch]
        · intro h
          rw [hfind] at h
          simp at h
      · have hm2 : idMatches id0 e = false := by
          cases hb : idMatches id0 e
          · rfl
          · exact absurd hb hm
        have hnm : ¬ lstripHash (idOf e) = id0 := by
          intro hh
          rw [idMatches_eq id0 e hwe] at hm
          exact hm (decide_eq_true hh)
        have hfind : (e :: rest).find? (idMatches id0) = rest.find? (idMatches id0) :=
          List.find?_cons_of_neg _ (by rw [hm2]; exact Bool.false_ne_true)
        obtain ⟨ih1, ih2⟩ := ih (n + 1) hwr
        constructor
        · intro el h
          rw [hfind] at h
          obtain ⟨i, hi⟩ := ih1 el h
          refine ⟨i, ?_⟩
          unfold graphFind
          simp only [hgid]
          rw [if_neg hnm, hi]
        · intro h
          rw [hfind] at h
          have h2 := ih2 h
          unfold graphFind
          simp only [hgid]
          rw [if_neg hnm, h2]
          simp

/-- Claim C3: for a mapping with a well-formed $graph list and load_all
false, the selection returns the first element whose id with leading number
signs stripped equals the requested fragment id (default "main"), and when
no element matches, both _get_id_from_graph and load_document_by_yaml raise
GraphTargetMissingException listing the available ids. -/
theorem claim3_graph_selection (m : List (String × Yaml)) (els : List Yaml)
    (uri : String) (lo : Option Unit) (id? : Option String)
    (hg : mapLookup m "$graph" = some (.list els))
    (hw : ∀ el ∈ els, wellId el = true) :
    (∀ el, els.find? (idMatches (id?.getD "main")) = some el →
        get_id_from_graph (.map m) id? = .ok el)
    ∧ (els.find? (idMatches (id?.getD "main")) = none →
        get_id_from_graph (.map m) id?
          = .error (.graphTargetMissing (gtmMsg (els.map idOf)))
        ∧ (load_document_by_yaml (.map m) uri lo id? false).fst
          = .error (.graphTargetMissing (gtmMsg (els.map idOf)))) := by
  obtain ⟨h1, h2⟩ := graphFind_spec (id?.getD "main") els 0 hw
  constructor
  · intro el h
    obtain ⟨i, hi⟩ := h1 el h
    unfold get_id_from_graph
    simp only [hg, hi]
  · intro h
    have hfind := h2 h
    constructor
    · unfold get_id_from_graph
      simp only [hg, hfind]
    · unfold load_document_by_yaml
      rw [cwl_version_map m]
      simp only []
      unfold graphStep
      simp only [hg, hfind]

/-- Claim C3, witness: the default fragment id selects the element whose id
"#main" strips to "main"; with an unmatched explicit id the typed exception
is raised. -/
theorem claim3_witness :
    get_id_from_graph
      (.map [("$graph", .list [.map [("id", .str "#main")], .map [("id", .str "other")]])])
      none
      = .ok (.map [("id", .str "#main")]) := by
  exact (claim3_graph_selection
    [("$graph", .list [.map [("id", .str "#main")], .map [("id", .str "other")]])]
    [.map [("id", .str "#main")], .map [("id", .str "other")]]
    "u" none none (by decide) (by decide)).1 (.map [("id", .str "#main")]) (by decide)

theorem mapLookup_mapSet_self (m : List (String × Yaml)) (k : String) (v : Yaml) :
    mapLookup (mapSet m k v) k = some v := by
  induction m with
  | nil => simp [mapSet, mapLookup]
  | cons kv rest ih =>
      obtain ⟨k0, v0⟩ := kv
      by_cases h : k0 = k
      · simp [mapSet, h, mapLookup]
      · simp [mapSet, h, mapLookup, ih]

theorem get?_set_self (els : List Yaml) : ∀ (j : Nat) (el el2 : Yaml),
    els.get? j = some el → (els.set j el2).get? j = some el2 := by
  induction els with
  | nil =>
      intro j el el2 h
      simp at h
  | cons e rest ih =>
      intro j el el2 h
      cases j with
      | zero => rfl
      | succ j =>
          simp only [List.get?] at h
          simp only [List.set, List.get?]
          exact ih j el el2 h

theorem graphFind_index (id0 : String) (els : List Yaml) :
    ∀ (n i : Nat) (el : Yaml), graphFind id0 n els = .ok (.inl (i, el)) →
      ∃ j, i = n + j ∧ els.get? j = some el := by
  induction els with
  | nil =>
      intro n i el h
      simp [graphFind] at h
  | cons e rest ih =>
      intro n i el h
      unfold graphFind at h
      cases hid : elGraphId e with
      | error err =>
          rw [hid] at h
          simp at h
      | ok s =>
          simp only [hid] at h
          by_cases hm : lstripHash s = id0
          · rw [if_pos hm] at h
            simp only [Except.ok.injEq, Sum.inl.injEq, Prod.mk.injEq] at h
            obtain ⟨hn, he⟩ := h
            exact ⟨0, by omega, by rw [← he]; rfl⟩
          · rw [if_neg hm] at h
            cases hrec : graphFind id0 (n + 1) rest with
            | error err =>
                simp only [hrec] at h
                simp at h
            | ok val =>
                simp only [hrec] at h
                cases val with
                | inl hit =>
                    simp only [Except.ok.injEq, Sum.inl.injEq] at h
                    obtain ⟨j, hij, hj⟩ := ih (n + 1) i el (by rw [hrec, h])
                    exact ⟨j + 1, by omega, by simpa using hj⟩
                | inr ids =>
                    simp at h

theorem dispatch_recognized (doc : Yaml) (uri : String) (lo : Option Unit) (ver : Yaml)
    (tag : LoaderTag) (hvt : versionTag ver = some tag) :
    dispatch doc uri lo ver = .ok (postProcess (versionedLoad tag doc uri lo) ver) := by
  rcases ver with _ | b | n | s | xs | mm
  · simp [versionTag] at hvt
  · simp [versionTag] at hvt
  · simp [versionTag] at hvt
  · by_cases h0 : s = "v1.0"
    · subst h0
      simp [versionTag] at hvt
      subst hvt
      rfl
    · by_cases h1 : s = "v1.1"
      · subst h1
        simp [versionTag] at hvt
        subst hvt
        rfl
      · by_cases h2 : s = "v1.2"
        · subst h2
          simp [versionTag] at hvt
          subst hvt
          rfl
        · simp [versionTag, h0, h1, h2] at hvt
  · simp [versionTag] at hvt
  · simp [versionTag] at hvt

/-- Claim C10: with load_all false and a matching $graph element, the
selected element gets its cwlVersion entry overwritten with the top-level
version inside the caller's object (so the input mapping is changed whenever
the element did not already store that exact version), and the versioned
loader receives the updated element. -/
theorem claim10_mutation (m : List (String × Yaml)) (els : List Yaml) (uri : String)
    (lo : Option Unit) (id? : Option String) (ver : Yaml) (i : Nat)
    (em : List (String × Yaml)) (tag : LoaderTag)
    (hg : mapLookup m "$graph" = some (.list els))
    (hv : cwl_version (.map m) = .ok ver)
    (hf : graphFind (id?.getD "main") 0 els = .ok (.inl (i, .map em)))
    (hvt : versionTag ver = some tag)
    (hdiff : mapLookup em "cwlVersion" ≠ some ver) :
    (load_document_by_yaml (.map m) uri lo id? false).snd
      = .map (mapSet m "$graph" (.list (els.set i (.map (mapSet em "cwlVersion" ver)))))
    ∧ (load_document_by_yaml (.map m) uri lo id? false).snd ≠ .map m
    ∧ (load_document_by_yaml (.map m) uri lo id? false).fst
      = .ok (postProcess (versionedLoad tag (.map (mapSet em "cwlVersion" ver)) uri lo) ver) := by
  have hstep : graphStep m ver id? false
      = .ok (.map (mapSet em "cwlVersion" ver),
          .map (mapSet m "$graph" (.list (els.set i (.map (mapSet em "cwlVersion" ver)))))) := by
    unfold graphStep
    simp only [hg, hf]
    rfl
  have hld : load_document_by_yaml (.map m) uri lo id? false
      = (dispatch (.map (mapSet em "cwlVersion" ver)) uri lo ver,
         .map (mapSet m "$graph" (.list (els.set i (.map (mapSet em "cwlVersion" ver)))))) := by
    unfold load_document_by_yaml
    rw [hv]
    simp only []
    rw [hstep]
  have hne : Yaml.map (mapSet m "$graph" (.list (els.set i (.map (mapSet em "cwlVersion" ver)))))
      ≠ .map m := by
    intro heq
    injection heq with heq
    have h1 : mapLookup (mapSet m "$graph" (.list (els.set i (.map (mapSet em "cwlVersion" ver)))))
        "$graph" = some (.list (els.set i (.map (mapSet em "cwlVersion" ver)))) :=
      mapLookup_mapSet_self _ _ _
    rw [heq, hg] at h1
    injection h1 with h1
    injection h1 with h1
    obtain ⟨j, hij, hj⟩ := graphFind_index (id?.getD "main") els 0 i (.map em) hf
    have hij0 : j = i := by omega
    subst hij0
    have h2 := get?_set_self els j (.map em) (.map (mapSet em "cwlVersion" ver)) hj
    rw [← h1, hj] at h2
    injection h2 with h2
    injection h2 with h2
    have h3 : mapLookup (mapSet em "cwlVersion" ver) "cwlVersion" = some ver :=
      mapLookup_mapSet_self _ _ _
    rw [← h2] at h3
    exact hdiff h3
  refine ⟨by rw [hld], by rw [hld]; exact hne, ?_⟩
  rw [hld]
  simp only []
  exact dispatch_recognized _ uri lo ver tag hvt

/-- Claim C10, witness: loading the single-element graph document selects
the main element, writes cwlVersion v1.2 into it, and hands the updated
element to the v1.2 loader; the caller's object is changed. -/
theorem claim10_witness :
    (load_document_by_yaml
      (.map [("cwlVersion", .str "v1.2"), ("$graph", .list [.map [("id", .str "main")]])])
      "u" none none false).snd
      ≠ .map [("cwlVersion", .str "v1.2"), ("$graph", .list [.map [("id", .str "main")]])] := by
  exact (claim10_mutation
    [("cwlVersion", .str "v1.2"), ("$graph", .list [.map [("id", .str "main")]])]
    [.map [("id", .str "main")]] "u" none none (.str "v1.2") 0 [("id", .str "main")] .v12
    (by decide) (by decide) (by decide) (by decide) (by decide)).2.1

theorem intListLt_irrefl : ∀ a, intListLt a a = false := by
  intro a
  induction a with
  | nil => rfl
  | cons x xs ih => simp [intListLt, ih]

theorem intListLt_trans : ∀ a b c, intListLt a b = true → intListLt b c = true →
    intListLt a c = true := by
  intro a
  induction a with
  | nil =>
      intro b c h1 h2
      cases b with
      | nil => simp [intListLt] at h1
      | cons y ys =>
          cases c with
          | nil => simp [intListLt] at h2
          | cons z zs => rfl
  | cons x xs ih =>
      intro b c h1 h2
      cases b with
      | nil => simp [intListLt] at h1
      | cons y ys =>
          cases c with
          | nil => simp [intListLt] at h2
          | cons z zs =>
              simp only [intListLt, Bool.or_eq_true, Bool.and_eq_true,
                decide_eq_true_eq] at h1 h2 ⊢
              rcases h1 with h1 | ⟨h1e, h1t⟩
              · rcases h2 with h2 | ⟨h2e, h2t⟩
                · exact Or.inl (by omega)
                · exact Or.inl (by omega)
              · rcases h2 with h2 | ⟨h2e, h2t⟩
                · exact Or.inl (by omega)
                · exact Or.inr ⟨by omega, ih ys zs h1t h2t⟩

theorem intListLt_connex : ∀ a b, intListLt a b = false →
    intListLt b a = true ∨ a = b := by
  intro a
  induction a with
  | nil =>
      intro b h
      cases b with
      | nil => exact Or.inr rfl
      | cons y ys => simp [intListLt] at h
  | cons x xs ih =>
      intro b h
      cases b with
      | nil => exact Or.inl rfl
      | cons y ys =>
          simp only [intListLt, Bool.or_eq_false_iff, Bool.and_eq_false_iff,
            decide_eq_false_iff_not] at h
          obtain ⟨hlt, heq⟩ := h
          by_cases hxy : x = y
          · subst hxy
            have htail : intListLt xs ys = false := by
              rcases heq with h | h
              · simp at h
              · exact h
            rcases ih ys htail with h | h
            · exact Or.inl (by simp [intListLt, h])
            · exact Or.inr (by rw [h])
          · have : y < x := by omega
            exact Or.inl (by simp [intListLt, this])

theorem pyMaxGo_spec : ∀ (rest : List Yaml) (cur : Yaml) (curK : List Int),
    versionKey cur = .ok curK →
    (∀ x ∈ rest, ∃ k, versionKey x = .ok k) →
    ∃ res resK, pyMaxGo cur curK rest = .ok res
      ∧ (res = cur ∨ res ∈ rest)
      ∧ versionKey res = .ok resK
      ∧ intListLt resK curK = false
      ∧ ∀ x ∈ rest, ∀ kx, versionKey x = .ok kx → intListLt resK kx = false := by
  intro rest
  induction rest with
  | nil =>
      intro cur curK hcur hall
      exact ⟨cur, curK, rfl, Or.inl rfl, hcur, intListLt_irrefl curK, by simp⟩
  | cons x rest ih =>
      intro cur curK hcur hall
      obtain ⟨kx, hkx⟩ := hall x (by simp)
      have hallr : ∀ z ∈ rest, ∃ k, versionKey z = .ok k :=
        fun z hz => hall z (by simp [hz])
      unfold pyMaxGo
      simp only [hkx]
      by_cases hlt : intListLt curK kx = true
      · rw [if_pos hlt]
        obtain ⟨res, resK, hrun, hmem, hvk, hnl, hrest⟩ := ih x kx hkx hallr
        refine ⟨res, resK, hrun, ?_, hvk, ?_, ?_⟩
        · rcases hmem with h | h
          · exact Or.inr (by simp [h])
          · exact Or.inr (by simp [h])
        · cases hb : intListLt resK curK
          · rfl
          · have := intListLt_trans resK curK kx hb hlt
            rw [hnl] at this
            simp at this
        · intro z hz kz hkz
          rcases List.mem_cons.mp hz with rfl | hz2
          · rw [hkx] at hkz
            injection hkz with hkz
            rw [← hkz]
            exact hnl
          · exact hrest z hz2 kz hkz
      · have hlt2 : intListLt curK kx = false := by
          cases hb : intListLt curK kx
          · rfl
          · exact absurd hb hlt
        rw [if_neg hlt]
        obtain ⟨res, resK, hrun, hmem, hvk, hnl, hrest⟩ := ih cur curK hcur hallr
        refine ⟨res, resK, hrun, ?_, hvk, hnl, ?_⟩
        · rcases hmem with h | h
          · exact Or.inl h
          · exact Or.inr (by simp [h])
        · intro z hz kz hkz
          rcases List.mem_cons.mp hz with rfl | hz2
          · rw [hkx] at hkz
            injection hkz with hkz
            subst hkz
            rcases intListLt_connex curK kx hlt2 with h | h
            · cases hb : intListLt resK kx
              · rfl
              · have := intListLt_trans resK kx curK hb h
                rw [hnl] at this
                simp at this
            · rw [← h]
              exact hnl
          · exact hrest z hz2 kz hkz

theorem pyMaxBy_spec (xs : List Yaml) (hne : xs ≠ [])
    (hall : ∀ x ∈ xs, ∃ k, versionKey x = .ok k) :
    ∃ res resK, pyMaxBy xs = .ok res ∧ res ∈ xs ∧ versionKey res = .ok resK
      ∧ ∀ x ∈ xs, ∀ kx, versionKey x = .ok kx → intListLt resK kx = false := by
  cases xs with
  | nil => exact absurd rfl hne
  | cons x rest =>
      obtain ⟨k, hk⟩ := hall x (by simp)
      obtain ⟨res, resK, hrun, hmem, hvk, hnl, hrest⟩ :=
        pyMaxGo_spec rest x k hk (fun z hz => hall z (by simp [hz]))
      refine ⟨res, resK, ?_, ?_, hvk, ?_⟩
      · simp only [pyMaxBy, hk]
        exact hrun
      · rcases hmem with h | h
        · simp [h]
        · simp [h]
      · intro z hz kz hkz
        rcases List.mem_cons.mp hz with rfl | hz2
        · rw [hk] at hkz
          injection hkz with hkz
          subst hkz
          exact hnl
        · exact hrest z hz2 kz hkz

theorem saveList_procs : ∀ (ps : List (List (String × Yaml) × String)) (top : Bool),
    saveList (ps.map (fun q => Val.saveable true (.map q.1))) top
      = .ok (ps.map (fun q => Yaml.map q.1)) := by
  intro ps top
  induction ps with
  | nil => simp [saveList]
  | cons q rest ih => simp [saveList, save, ih]

theorem all_procs (ps : List (List (String × Yaml) × String)) :
    (ps.map (fun q => Val.saveable true (.map q.1))).all is_process = true := by
  rw [List.all_eq_true]
  intro v hv
  rcases List.mem_map.mp hv with ⟨q, -, rfl⟩
  rfl

theorem versOf_procs : ∀ (ps : List (List (String × Yaml) × String)),
    (∀ q ∈ ps, mapLookup q.1 "cwlVersion" = some (.str q.2)) →
    versOf (ps.map (fun q => Yaml.map q.1)) (ps.map (fun q => Val.saveable true (.map q.1)))
      = .ok (ps.map (fun q => Yaml.str q.2)) := by
  intro ps
  induction ps with
  | nil =>
      intro hver
      rfl
  | cons q rest ih =>
      intro hver
      have hq := hver q (by simp)
      have hr := ih (fun z hz => hver z (by simp [hz]))
      simp [versOf, is_process, eGet, hq, hr]

/-- Claim C5: saving a non-empty list of loaded Process objects at top level
produces the plain mapping with a cwlVersion key holding the latest of the
elements' versions under the numeric version_split ordering, and a $graph
key holding the elementwise serializations. -/
theorem claim5_save_graph (ps : List (List (String × Yaml) × String))
    (hne : ps ≠ [])
    (hver : ∀ q ∈ ps, mapLookup q.1 "cwlVersion" = some (.str q.2))
    (hsplit : ∀ q ∈ ps, (version_split q.2).isOk = true) :
    ∃ latest ks, latest ∈ ps.map (fun q => Yaml.str q.2)
      ∧ save (.vlist (ps.map (fun q => Val.saveable true (.map q.1)))) true
          = .ok (.map [("cwlVersion", latest),
              ("$graph", .list (ps.map (fun q => Yaml.map q.1)))])
      ∧ versionKey latest = .ok ks
      ∧ ∀ q ∈ ps, ∀ kq, version_split q.2 = .ok kq → intListLt ks kq = false := by
  have hcands : ∀ x ∈ ps.map (fun q => Yaml.str q.2), ∃ k, versionKey x = .ok k := by
    intro x hx
    rcases List.mem_map.mp hx with ⟨q, hq, rfl⟩
    have hok := hsplit q hq
    cases hvs : version_split q.2 with
    | error e =>
        rw [hvs] at hok
        simp [Except.isOk, Except.toBool] at hok
    | ok k => exact ⟨k, by simp [versionKey, hvs]⟩
  have hcne : ps.map (fun q => Yaml.str q.2) ≠ [] := by
    intro h
    exact hne (List.map_eq_nil_iff.mp h)
  obtain ⟨res, resK, hrun, hmem, hvk, hmax⟩ := pyMaxBy_spec _ hcne hcands
  have hfilter : (ps.map (fun q => Yaml.str q.2)).filter (fun v => decide (v ≠ Yaml.null))
      = ps.map (fun q => Yaml.str q.2) := by
    rw [List.filter_eq_self]
    intro a ha
    rcases List.mem_map.mp ha with ⟨q, -, rfl⟩
    simp
  refine ⟨res, resK, hmem, ?_, hvk, ?_⟩
  · simp only [save, saveList_procs ps true, all_procs ps, Bool.true_and, if_true,
      versOf_procs ps hver, hfilter, hrun]
  · intro q hq kq hkq
    exact hmax (Yaml.str q.2) (List.mem_map.mpr ⟨q, hq, rfl⟩) kq (by simp [versionKey, hkq])

/-- Claim C5, witness: two processes at v1.0 and v1.2 serialize into a
$graph mapping whose cwlVersion is the later one. -/
theorem claim5_witness :
    ∃ latest ks,
      latest ∈ [([("cwlVersion", Yaml.str "v1.0")], "v1.0"),
        ([("cwlVersion", Yaml.str "v1.2")], "v1.2")].map (fun q => Yaml.str q.2)
      ∧ save (.vlist ([([("cwlVersion", Yaml.str "v1.0")], "v1.0"),
          ([("cwlVersion", Yaml.str "v1.2")], "v1.2")].map
            (fun q => Val.saveable true (.map q.1)))) true
        = .ok (.map [("cwlVersion", latest),
            ("$graph", .list ([([("cwlVersion", Yaml.str "v1.0")], "v1.0"),
              ([("cwlVersion", Yaml.str "v1.2")], "v1.2")].map (fun q => Yaml.map q.1)))])
      ∧ versionKey latest = .ok ks
      ∧ ∀ q ∈ [([("cwlVersion", Yaml.str "v1.0")], "v1.0"),
          ([("cwlVersion", Yaml.str "v1.2")], "v1.2")], ∀ kq,
            version_split q.2 = .ok kq → intListLt ks kq = false := by
  exact claim5_save_graph
    [([("cwlVersion", Yaml.str "v1.0")], "v1.0"), ([("cwlVersion", Yaml.str "v1.2")], "v1.2")]
    (by decide) (by decide) (by decide)

theorem reqsLoop_eq : ∀ rs, reqsLoop rs = swOf rs := by
  intro rs
  induction rs with
  | nil => rfl
  | cons r rest ih =>
      cases r with
      | software x => simp [reqsLoop, swOf, List.filterMap_cons, ih]
      | other c => simp [reqsLoop, swOf, List.filterMap_cons, ih]

theorem hintsLoop_spec (lf : Yaml → Except Err SoftwareRequirement) :
    ∀ hs : List Yaml, (∀ h ∈ hs, hintHasClass h = true) →
    hintsLoop lf hs = mapLf lf (hs.filter hintIsSW) := by
  intro hs
  induction hs with
  | nil => intro _; rfl
  | cons h rest ih =>
      intro hw
      have hh := hw h (by simp)
      have hr := ih (fun z hz => hw z (by simp [hz]))
      rcases h with _ | b | n | s | xs | hm
      · simp [hintHasClass] at hh
      · simp [hintHasClass] at hh
      · simp [hintHasClass] at hh
      · simp [hintHasClass] at hh
      · simp [hintHasClass] at hh
      · simp only [hintHasClass] at hh
        rcases hl : mapLookup hm "class" with _ | c
        · rw [hl] at hh
          simp at hh
        · have hhc : hintClass (.map hm) = .ok c := by
            simp [hintClass, hl]
          by_cases hc : c = .str "SoftwareRequirement"
          · have hsw : hintIsSW (.map hm) = true := by
              simp [hintIsSW, hl, hc]
          -- selected hint: both sides call lf then recurse
            simp only [hintsLoop, hhc, if_pos hc, List.filter_cons_of_pos hsw, mapLf, hr]
          · have hsw : hintIsSW (.map hm) = false := by
              simp only [hintIsSW, hl]
              simp [hc]
            have hfil : List.filter hintIsSW (Yaml.map hm :: rest)
                = List.filter hintIsSW rest :=
              List.filter_cons_of_neg (by rw [hsw]; exact Bool.false_ne_true)
            simp only [hintsLoop, hhc, if_neg hc, hr, hfil]

/-- Claim C7: the software requirements extracted from a process are exactly
the SoftwareRequirement instances of its requirements, followed by one
loader result per hints entry whose class field equals SoftwareRequirement,
and nothing else. -/
theorem claim7_extract_reqs (lf : Yaml → Except Err SoftwareRequirement) (a : ProcAttrs)
    (hw : ∀ h ∈ a.hints.getD [], hintHasClass h = true) :
    extract_software_reqs lf a
      = Except.map (fun loaded => swOf (a.requirements.getD []) ++ loaded)
          (mapLf lf ((a.hints.getD []).filter hintIsSW)) := by
  unfold extract_software_reqs
  rcases ha : a.hints with _ | hs
  · rcases hr : a.requirements with _ | rs
    · simp [Except.map, mapLf, swOf]
    · simp [Except.map, mapLf, reqsLoop_eq]
  · rw [ha] at hw
    simp only [Option.getD] at hw ⊢
    rw [hintsLoop_spec lf hs hw]
    cases hml : mapLf lf (hs.filter hintIsSW) with
    | error e => simp [Except.map]
    | ok loaded =>
        rcases hr : a.requirements with _ | rs
        · simp [Except.map, swOf]
        · simp [Except.map, reqsLoop_eq]

/-- Claim C7, witness: a concrete process with one SoftwareRequirement among
two requirements entries and one matching hint among two hints yields
exactly those two, in order. -/
theorem claim7_witness :
    extract_software_reqs c7lf c7attrs
      = Except.map (fun loaded => swOf (c7attrs.requirements.getD []) ++ loaded)
          (mapLf c7lf ((c7attrs.hints.getD []).filter hintIsSW)) :=
  claim7_extract_reqs c7lf c7attrs (by decide)

theorem depthP_pos : ∀ p : ProcT, 1 ≤ depthP p := by
  intro p
  cases p with
  | tool a => simp [depthP]
  | workflow a steps => simp [depthP]

theorem traverse_workflow_eq_aux (lf : Yaml → Except Err SoftwareRequirement)
    (R : String → ProcT) (fuel : Nat)
    (IH : ∀ p, inlineOnlyP p = true → depthP p ≤ fuel →
      traverse lf R fuel p = some (traverseSpec lf p)) :
    ∀ steps, inlineOnlySteps steps = true → depthSteps steps ≤ fuel →
      traverse_workflow lf R fuel steps = some (traverseSpecSteps lf steps) := by
  intro steps
  induction steps with
  | nil =>
      intro _ _
      simp [traverse_workflow, traverseSpecSteps]
  | cons s rest ih =>
      intro hinl hdep
      have hinl2 : inlineOnlyStep s = true ∧ inlineOnlySteps rest = true := by
        simpa [inlineOnlySteps] using hinl
      obtain ⟨h1, h2⟩ := hinl2
      rcases s with ⟨a, run⟩
      rcases run with u | p
      · simp [inlineOnlyStep] at h1
      · have hdp : depthP p ≤ fuel := by
          simp only [depthSteps, depthStep] at hdep
          omega
        have hdr : depthSteps rest ≤ fuel := by
          have hp1 := depthP_pos p
          simp only [depthSteps, depthStep] at hdep
          omega
        have hp := IH p (by simpa [inlineOnlyStep] using h1) hdp
        have hr := ih h2 hdr
        cases hesp : extract_software_packages lf a with
        | error e =>
            simp [traverse_workflow, traverseSpecSteps, stepAttrs, hesp]
        | ok out1 =>
            simp only [traverse_workflow, traverseSpecSteps, stepAttrs, hesp,
              get_process_from_step, hp, hr, traverseSpecStep]
            cases traverseSpec lf p with
            | error e => rfl
            | ok out2 =>
                cases traverseSpecSteps lf rest with
                | error e => rfl
                | ok out3 => rfl

theorem traverse_eq_spec (lf : Yaml → Except Err SoftwareRequirement)
    (R : String → ProcT) :
    ∀ (fuel : Nat) (p : ProcT), inlineOnlyP p = true → depthP p ≤ fuel →
      traverse lf R fuel p = some (traverseSpec lf p) := by
  intro fuel
  induction fuel with
  | zero =>
      intro p hinl hdep
      have := depthP_pos p
      omega
  | succ fuel ih =>
      intro p hinl hdep
      rcases p with a | ⟨a, steps⟩
      · cases hesp : extract_software_packages lf a with
        | error e => simp [traverse, traverseSpec, attrsOf, hesp]
        | ok out0 => simp [traverse, traverseSpec, attrsOf, hesp]
      · have hsteps := traverse_workflow_eq_aux lf R fuel ih steps
          (by simpa [inlineOnlyP] using hinl)
          (by simp only [depthP] at hdep; omega)
        cases hesp : extract_software_packages lf a with
        | error e => simp [traverse, traverseSpec, attrsOf, hesp]
        | ok out0 =>
            simp only [traverse, traverseSpec, attrsOf, hesp, hsteps]
            cases traverseSpecSteps lf steps with
            | error e => rfl
            | ok rest => rfl

/-- Claim C6: traverse prints the package metadata of the process it is
given; on a Workflow it additionally walks every step, printing the step
package metadata and recursing into the process the step runs, where a
string run field is loaded from its uri through the resolver and an
embedded process is used directly.  The fuel-indexed embedding agrees with
the structural specification on every self-contained tree, at any
sufficient fuel. -/
theorem claim6_traverse (lf : Yaml → Except Err SoftwareRequirement)
    (R : String → ProcT) :
    (∀ a s, get_process_from_step R (.mk a (.uri s)) = R s)
    ∧ (∀ a p, get_process_from_step R (.mk a (.proc p)) = p)
    ∧ ∀ fuel p, inlineOnlyP p = true → depthP p ≤ fuel →
        traverse lf R fuel p = some (traverseSpec lf p) :=
  ⟨fun _ _ => rfl, fun _ _ => rfl, traverse_eq_spec lf R⟩

/-- Claim C6, witness: a concrete one-step workflow traverses to the same
output as its structural specification. -/
theorem claim6_witness :
    traverse c7lf c6resolver 2 c6proc = some (traverseSpec c7lf c6proc) :=
  (claim6_traverse c7lf c6resolver).2.2 2 c6proc
    (by simp [c6proc, inlineOnlyP, inlineOnlySteps, inlineOnlyStep])
    (by simp [c6proc, depthP, depthSteps, depthStep])

/-- Claim C8: on every finite self-contained process tree (every run field
an embedded process, so following run sub-processes never leaves the finite
tree), traverse terminates: fuel equal to the nesting depth of the tree
already suffices for the fuel-indexed embedding to return a result. -/
theorem claim8_termination (lf : Yaml → Except Err SoftwareRequirement)
    (R : String → ProcT) :
    ∀ p, inlineOnlyP p = true → (traverse lf R (depthP p) p).isSome = true := by
  intro p hinl
  rw [traverse_eq_spec lf R (depthP p) p hinl (Nat.le_refl _)]
  rfl

/-- Claim C8, witness: the three-level nested workflow terminates with fuel
equal to its depth. -/
theorem claim8_witness :
    (traverse c7lf c6resolver (depthP c8proc) c8proc).isSome = true :=
  claim8_termination c7lf c6resolver c8proc
    (by simp [c8proc, inlineOnlyP, inlineOnlySteps, inlineOnlyStep])

end CwlUtils
